import Mathlib

/-!
# A verification of the `RiveFileService` reference-counted file cache

Shallow embedding of `libs/rive-angular/src/lib/services/rive-file.service.ts`
(the version with in-flight deduplication, i.e. the `pendingLoads` table and
the `bufferIdCounter`-based buffer identity tags).

Modelling choices:
* Angular writable signals are update-in-place records; we model them as a
  store `signals : List (Nat × RiveFileState)` indexed by signal id.  The
  readonly view returned by `asReadonly()` is the same underlying signal, so
  an observable reference is just its signal id.
* `RiveFile` handles are opaque; we model a handle as an id allocated from a
  counter, and record the externally visible calls made on handles
  (`construct`, `init`, `getInstance`, `cleanup`) in an event trace.
* JavaScript `ArrayBuffer` objects are heap objects; we model a buffer as an
  id into a store `buffers : List (Nat × BufferObj)`.  The `__riveBufferId`
  expando property lives on the buffer object itself.
* The promise executor of `loadRiveFile` runs synchronously: the `RiveFile`
  constructor, `init()`, and the `on(...)` handler registrations (or the
  `catch` block, on a synchronous throw) all run before `loadFile` continues
  with `pendingLoads.set`.  The `Load` / `LoadError` notifications fire later,
  at most once per load episode; firing one of them is a separate atomic step
  (`fireLoad` / `fireLoadError`).
* A load episode records the signal, the constructed handle (if any), which
  notification has fired, and how the episode's promise was settled.
* Whether a given handle's `cleanup()` throws is an environment choice,
  modelled by a function `beh : Nat → Bool`; `cleanupCall` returns `Except`
  and the service's `try`/`catch` is an explicit match on it.
-/

namespace RiveFileCache

/-- `FileStatus` from the source: `'idle' | 'loading' | 'success' | 'failed'`. -/
inductive FileStatus
  | idle
  | loading
  | success
  | failed
deriving DecidableEq

/-- `RiveFileState`: the record held by the state signal.  `riveFile` is the
handle id of the loaded file, if any. -/
structure RiveFileState where
  riveFile : Option Nat
  status : FileStatus
deriving DecidableEq

/-- `CacheEntry`: `file` is a handle id, `state` the signal id of the readonly
state view, `refCount` a JavaScript number (here `Int`, since the code never
clamps the decrement). -/
structure CacheEntry where
  file : Nat
  state : Nat
  refCount : Int
deriving DecidableEq

/-- `PendingLoad`: the in-flight table entry.  The promise is tracked on the
episode record instead, so only the signal id is kept here. -/
structure PendingLoad where
  stateSignal : Nat
deriving DecidableEq

/-- A JavaScript `ArrayBuffer` together with the `__riveBufferId` expando
property the service memoizes on it. -/
structure BufferObj where
  byteLength : Nat
  riveBufferId : Option Nat
deriving DecidableEq

/-- `RiveFileParams`: `src?: string; buffer?: ArrayBuffer`.  The buffer is a
reference (id) into the buffer store. -/
structure RiveFileParams where
  src : Option String := none
  buffer : Option Nat := none
deriving DecidableEq

/-- Externally visible calls the service makes on `RiveFile` handles. -/
inductive Ev
  | construct (h : Nat)
  | initCall (h : Nat)
  | getInstance (h : Nat)
  | cleanup (h : Nat)
deriving DecidableEq

/-- Which notification has settled a load episode. -/
inductive EpStatus
  | pending
  | loaded
  | errored
deriving DecidableEq

/-- How a promise was settled. -/
inductive PromiseOutcome
  | resolved
  | rejected
deriving DecidableEq

/-- One invocation of the load procedure (`loadRiveFile`): the cache key it
closes over, its state signal, the handle it constructed (none if the
constructor threw), which notification has fired, and the outcome of the
promise returned to `loadFile`. -/
structure Episode where
  key : String
  sigId : Nat
  handleId : Option Nat
  status : EpStatus
  promise : Option PromiseOutcome
deriving DecidableEq

/-- Association-list model of a JavaScript `Map` (and of the signal / buffer
stores): `get`. -/
def mapGet {κ α : Type} [DecidableEq κ] : List (κ × α) → κ → Option α
  | [], _ => none
  | p :: rest, k => if p.1 = k then some p.2 else mapGet rest k

/-- `Map.set`: replaces the value in place if the key is present (JavaScript
`Map` keeps the original insertion position), otherwise appends. -/
def mapSet {κ α : Type} [DecidableEq κ] : List (κ × α) → κ → α → List (κ × α)
  | [], k, v => [(k, v)]
  | p :: rest, k, v => if p.1 = k then (k, v) :: rest else p :: mapSet rest k v

/-- `Map.delete`. -/
def mapDelete {κ α : Type} [DecidableEq κ] : List (κ × α) → κ → List (κ × α)
  | [], _ => []
  | p :: rest, k => if p.1 = k then mapDelete rest k else p :: mapDelete rest k

/-- The whole service plus the heap it interacts with: the two tables and the
buffer id counter are the service's fields; `signals`, `buffers`, the handle
counter, the episode list and the event trace model the environment. -/
structure ServiceState where
  cache : List (String × CacheEntry)
  pendingLoads : List (String × PendingLoad)
  bufferIdCounter : Nat
  signals : List (Nat × RiveFileState)
  nextSig : Nat
  buffers : List (Nat × BufferObj)
  nextBuf : Nat
  nextHandle : Nat
  episodes : List Episode
  events : List Ev
deriving DecidableEq

/-- Assign `++this.bufferIdCounter` to the buffer's `__riveBufferId` and build
the `buffer:` key from it. -/
def assignFreshBufferId (st : ServiceState) (bid : Nat) (b : BufferObj) :
    String × ServiceState :=
  let newId := st.bufferIdCounter + 1
  ("buffer:" ++ Nat.repr newId,
   { st with
       bufferIdCounter := newId,
       buffers := mapSet st.buffers bid { b with riveBufferId := some newId } })

/-- Truthiness dispatch on the memoized `__riveBufferId` property:
`if (!bufferWithId.__riveBufferId)` assigns a fresh id when the property is
absent (`undefined`) or `0`, and otherwise reuses it. -/
def bufferKeyOfTag (st : ServiceState) (bid : Nat) (b : BufferObj) :
    Option Nat → String × ServiceState
  | some (n + 1) => ("buffer:" ++ Nat.repr (n + 1), st)
  | some 0 => assignFreshBufferId st bid b
  | none => assignFreshBufferId st bid b

/-- Dereference the buffer object and dispatch on its memoized tag. -/
def bufferKeyOfObj (st : ServiceState) (bid : Nat) :
    Option BufferObj → String × ServiceState
  | none => ("unknown", st)
  | some b => bufferKeyOfTag st bid b b.riveBufferId

/-- The `params.buffer` branch of `getCacheKey`.  A present buffer object is
always truthy; the memoized `__riveBufferId` is truthy iff it is a nonzero
number.  A buffer id that is not in the store has no JavaScript counterpart
(a dangling reference cannot be expressed there); we map it to the
`'unknown'` bucket, which no claim exercises. -/
def bufferCacheKey (st : ServiceState) : Option Nat → String × ServiceState
  | none => ("unknown", st)
  | some bid => bufferKeyOfObj st bid (mapGet st.buffers bid)

/-- `getCacheKey`.  `if (params.src)` is JavaScript truthiness: `undefined`
and the empty string both fall through to the buffer branch. -/
def getCacheKey (st : ServiceState) (params : RiveFileParams) :
    String × ServiceState :=
  match params.src with
  | some s => if s = "" then bufferCacheKey st params.buffer else ("src:" ++ s, st)
  | none => bufferCacheKey st params.buffer

/-- `stateSignal.set(v)`. -/
def setSignal (st : ServiceState) (sid : Nat) (v : RiveFileState) : ServiceState :=
  { st with signals := mapSet st.signals sid v }

/-- Body of `loadFile` after `const cacheKey = this.getCacheKey(params)`.
`ctorThrows` is the environment's choice of whether `new RiveFile(params)` /
`file.init()` throws synchronously inside the promise executor. -/
def loadFileAt (st : ServiceState) (cacheKey : String) (ctorThrows : Bool) :
    Nat × ServiceState :=
  match mapGet st.cache cacheKey with
  | some cached =>
    (cached.state,
     { st with
         cache := mapSet st.cache cacheKey { cached with refCount := cached.refCount + 1 } })
  | none =>
    match mapGet st.pendingLoads cacheKey with
    | some pending => (pending.stateSignal, st)
    | none =>
      let sid := st.nextSig
      let st1 : ServiceState :=
        { st with
            signals := mapSet st.signals sid { riveFile := none, status := .loading },
            nextSig := sid + 1 }
      let st2 : ServiceState :=
        if ctorThrows then
          -- catch block of loadRiveFile: set the failed state, delete the
          -- (not yet registered) pending entry, resolve the promise.
          let stF := setSignal st1 sid { riveFile := none, status := .failed }
          let stF := { stF with pendingLoads := mapDelete stF.pendingLoads cacheKey }
          { stF with
              episodes := stF.episodes ++ [⟨cacheKey, sid, none, .errored, some .resolved⟩] }
        else
          -- new RiveFile(params); file.init(); handlers registered.
          let h := st1.nextHandle
          { st1 with
              nextHandle := h + 1,
              events := st1.events ++ [Ev.construct h, Ev.initCall h],
              episodes := st1.episodes ++ [⟨cacheKey, sid, some h, .pending, none⟩] }
      -- loadFile continues: this.pendingLoads.set(cacheKey, { stateSignal, promise })
      (sid, { st2 with pendingLoads := mapSet st2.pendingLoads cacheKey ⟨sid⟩ })

/-- `loadFile`. -/
def loadFile (st0 : ServiceState) (params : RiveFileParams) (ctorThrows : Bool) :
    Nat × ServiceState :=
  let r := getCacheKey st0 params
  loadFileAt r.2 r.1 ctorThrows

/-- The external `cleanup()` call: throws iff the environment `beh` says so. -/
def cleanupCall (beh : Nat → Bool) (h : Nat) : Except Unit Unit :=
  if beh h then .error () else .ok ()

/-- Body of `releaseFile` after key derivation.  The `try`/`catch` around
`cleanup()` is the match: both branches continue with `cache.delete`. -/
def releaseFileAt (beh : Nat → Bool) (st : ServiceState) (cacheKey : String) :
    ServiceState :=
  match mapGet st.cache cacheKey with
  | none => st
  | some cached =>
    let rc := cached.refCount - 1
    if rc ≤ 0 then
      let st' := { st with events := st.events ++ [Ev.cleanup cached.file] }
      match cleanupCall beh cached.file with
      | .ok _ => { st' with cache := mapDelete st'.cache cacheKey }
      | .error _ => { st' with cache := mapDelete st'.cache cacheKey }
    else
      { st with cache := mapSet st.cache cacheKey { cached with refCount := rc } }

/-- `releaseFile`. -/
def releaseFile (beh : Nat → Bool) (st0 : ServiceState) (params : RiveFileParams) :
    ServiceState :=
  let r := getCacheKey st0 params
  releaseFileAt beh r.2 r.1

/-- The `cache.forEach` loop of `clearCache`: one `cleanup()` call per entry,
each in its own `try`/`catch`, so a throwing entry does not stop the loop. -/
def clearCacheCleanups (beh : Nat → Bool) : List (String × CacheEntry) → List Ev
  | [] => []
  | (_, e) :: rest =>
    Ev.cleanup e.file ::
      (match cleanupCall beh e.file with
       | Except.ok _ => clearCacheCleanups beh rest
       | Except.error _ => clearCacheCleanups beh rest)

/-- `clearCache`: cleanup every entry, then `cache.clear()`. -/
def clearCache (beh : Nat → Bool) (st : ServiceState) : ServiceState :=
  { st with
      events := st.events ++ clearCacheCleanups beh st.cache,
      cache := [] }

/-- The `EventType.Load` handler of episode `i` firing: `getInstance()`, set
the success state, promote the key into the cache with `refCount = 1`, delete
the in-flight entry, resolve the promise.  Fires only if no notification has
fired for this episode yet. -/
def fireLoad (st : ServiceState) (i : Nat) : ServiceState :=
  match st.episodes[i]? with
  | none => st
  | some ep =>
    if ep.status = .pending then
      match ep.handleId with
      | none => st
      | some h =>
        let st1 := { st with events := st.events ++ [Ev.getInstance h] }
        let st2 := setSignal st1 ep.sigId { riveFile := some h, status := .success }
        let st3 :=
          { st2 with
              cache := mapSet st2.cache ep.key { file := h, state := ep.sigId, refCount := 1 } }
        let st4 := { st3 with pendingLoads := mapDelete st3.pendingLoads ep.key }
        { st4 with
            episodes := st4.episodes.set i { ep with status := .loaded, promise := some .resolved } }
    else st

/-- The `EventType.LoadError` handler of episode `i` firing: set the failed
state, delete the in-flight entry, resolve (never reject) the promise. -/
def fireLoadError (st : ServiceState) (i : Nat) : ServiceState :=
  match st.episodes[i]? with
  | none => st
  | some ep =>
    if ep.status = .pending then
      let st1 := setSignal st ep.sigId { riveFile := none, status := .failed }
      let st2 := { st1 with pendingLoads := mapDelete st1.pendingLoads ep.key }
      { st2 with
          episodes := st2.episodes.set i { ep with status := .errored, promise := some .resolved } }
    else st

/-- A caller creating a fresh `ArrayBuffer` of the given byte length. -/
def allocBuffer (st : ServiceState) (len : Nat) : Nat × ServiceState :=
  (st.nextBuf,
   { st with
       buffers := mapSet st.buffers st.nextBuf ⟨len, none⟩,
       nextBuf := st.nextBuf + 1 })

/-- `n` successive `releaseFile` calls with the same parameters. -/
def iterRelease (beh : Nat → Bool) (params : RiveFileParams) :
    Nat → ServiceState → ServiceState
  | 0, s => s
  | n + 1, s => releaseFile beh (iterRelease beh params n s) params

/-- Decimal digit characters of `n`, most significant first: a structurally
recursive reference for `Nat.toDigits 10` (whose fuel-based recursion is
awkward to reason about directly). -/
def digitsAux (n : Nat) : List Char :=
  if _h : n < 10 then [Nat.digitChar n]
  else digitsAux (n / 10) ++ [Nat.digitChar (n % 10)]
decreasing_by exact Nat.div_lt_self (by omega) (by omega)

/-- Numeric value of a digit-character list, most significant first. -/
def digitsVal (l : List Char) : Nat :=
  l.foldl (fun a c => a * 10 + (c.toNat - 48)) 0

/-- The freshly constructed service with an empty heap. -/
def initState : ServiceState :=
  { cache := [], pendingLoads := [], bufferIdCounter := 0, signals := [],
    nextSig := 0, buffers := [], nextBuf := 0, nextHandle := 0,
    episodes := [], events := [] }

/-- States reachable by any interleaving of service calls, notification
deliveries and caller-side buffer allocations, for a fixed cleanup-throw
environment `beh`. -/
inductive Reachable (beh : Nat → Bool) : ServiceState → Prop
  | empty : Reachable beh initState
  | load {s} (params : RiveFileParams) (ct : Bool) :
      Reachable beh s → Reachable beh (loadFile s params ct).2
  | release {s} (params : RiveFileParams) :
      Reachable beh s → Reachable beh (releaseFile beh s params)
  | clear {s} : Reachable beh s → Reachable beh (clearCache beh s)
  | settleOk {s} (i : Nat) : Reachable beh s → Reachable beh (fireLoad s i)
  | settleErr {s} (i : Nat) : Reachable beh s → Reachable beh (fireLoadError s i)
  | alloc {s} (len : Nat) : Reachable beh s → Reachable beh (allocBuffer s len).2

/-- The invariant maintained by every reachable service state.  `disj` is the
{absent, pending, cached} exclusivity; `cache_sig` says every cached entry's
signal reports `Success` with the entry's own handle; `clean_ev` and
`err_clean` say `cleanup` is only ever invoked on handles of successfully
loaded episodes and never on a failed episode's handle; `promise_ok` says an
episode's promise is resolved exactly when it has settled (never rejected);
the remaining clauses are bookkeeping (freshness of allocated ids, uniqueness
of tags). -/
structure WF (s : ServiceState) : Prop where
  disj : ∀ (k : String) (e : CacheEntry),
    mapGet s.cache k = some e → mapGet s.pendingLoads k = none
  sig_lt : ∀ p ∈ s.signals, p.1 < s.nextSig
  ep_sig_lt : ∀ ep ∈ s.episodes, ep.sigId < s.nextSig
  ep_h_lt : ∀ ep ∈ s.episodes, ∀ h, ep.handleId = some h → h < s.nextHandle
  sig_inj : ∀ (i j : Nat) (ep ep' : Episode),
    s.episodes[i]? = some ep → s.episodes[j]? = some ep' →
    ep.sigId = ep'.sigId → i = j
  h_inj : ∀ (i j : Nat) (ep ep' : Episode) (h : Nat),
    s.episodes[i]? = some ep → s.episodes[j]? = some ep' →
    ep.handleId = some h → ep'.handleId = some h → i = j
  cache_ep : ∀ p ∈ s.cache, ∃ (i : Nat) (ep : Episode),
    s.episodes[i]? = some ep ∧ ep.status = .loaded ∧
    ep.handleId = some p.2.file ∧ ep.sigId = p.2.state
  cache_sig : ∀ p ∈ s.cache, mapGet s.signals p.2.state = some ⟨some p.2.file, .success⟩
  clean_ev : ∀ hh : Nat, Ev.cleanup hh ∈ s.events → ∃ (i : Nat) (ep : Episode),
    s.episodes[i]? = some ep ∧ ep.status = .loaded ∧ ep.handleId = some hh
  err_clean : ∀ (i : Nat) (ep : Episode) (hh : Nat),
    s.episodes[i]? = some ep → ep.status = .errored → ep.handleId = some hh →
    (∀ p ∈ s.cache, p.2.file ≠ hh) ∧ Ev.cleanup hh ∉ s.events
  promise_ok : ∀ ep ∈ s.episodes,
    ep.promise = if ep.status = .pending then none else some PromiseOutcome.resolved
  buf_le : ∀ p ∈ s.buffers, ∀ n, p.2.riveBufferId = some n →
    1 ≤ n ∧ n ≤ s.bufferIdCounter
  buf_inj : ∀ p ∈ s.buffers, ∀ q ∈ s.buffers, ∀ n, p.2.riveBufferId = some n →
    q.2.riveBufferId = some n → p.1 = q.1

/-! ## Association-list map lemmas -/

theorem mapGet_set {κ α : Type} [DecidableEq κ] (m : List (κ × α)) (k k' : κ) (v : α) :
    mapGet (mapSet m k v) k' = if k' = k then some v else mapGet m k' := by
  induction m with
  | nil => by_cases h : k' = k <;> simp [mapSet, mapGet, h, Ne.symm]
  | cons p rest ih =>
    by_cases hpk : p.1 = k
    · by_cases h : k' = k <;> simp [mapSet, mapGet, hpk, h, hpk ▸ h, Ne.symm]
    · simp only [mapSet, if_neg hpk, mapGet]
      by_cases hp : p.1 = k'
      · have : ¬ k' = k := fun hh => hpk (hp.trans hh)
        simp [hp, this]
      · simp [hp, ih]

theorem mapGet_delete {κ α : Type} [DecidableEq κ] (m : List (κ × α)) (k k' : κ) :
    mapGet (mapDelete m k) k' = if k' = k then none else mapGet m k' := by
  induction m with
  | nil => simp [mapDelete, mapGet]
  | cons p rest ih =>
    simp only [mapDelete]
    by_cases hpk : p.1 = k
    · rw [if_pos hpk, ih]
      by_cases h : k' = k
      · simp [h]
      · have hp : ¬ p.1 = k' := fun hh => h (hh ▸ hpk)
        simp [mapGet, hp, h]
    · rw [if_neg hpk]
      simp only [mapGet]
      by_cases hp : p.1 = k'
      · have hk : ¬ k' = k := fun hh => hpk (hp.trans hh)
        simp [hp, hk]
      · simp [hp, ih]

theorem mapGet_set_self {κ α : Type} [DecidableEq κ] (m : List (κ × α)) (k : κ) (v : α) :
    mapGet (mapSet m k v) k = some v := by
  simp [mapGet_set]

theorem mapGet_set_ne {κ α : Type} [DecidableEq κ] (m : List (κ × α)) (k k' : κ) (v : α)
    (h : k' ≠ k) : mapGet (mapSet m k v) k' = mapGet m k' := by
  simp [mapGet_set, h]

theorem mapGet_delete_self {κ α : Type} [DecidableEq κ] (m : List (κ × α)) (k : κ) :
    mapGet (mapDelete m k) k = none := by
  simp [mapGet_delete]

theorem mapGet_delete_ne {κ α : Type} [DecidableEq κ] (m : List (κ × α)) (k k' : κ)
    (h : k' ≠ k) : mapGet (mapDelete m k) k' = mapGet m k' := by
  simp [mapGet_delete, h]

theorem mem_mapSet {κ α : Type} [DecidableEq κ] {m : List (κ × α)} {k : κ} {v : α}
    {p : κ × α} (h : p ∈ mapSet m k v) : p = (k, v) ∨ p ∈ m := by
  induction m with
  | nil =>
    simp [mapSet] at h
    simp [h]
  | cons q rest ih =>
    by_cases hqk : q.1 = k
    · simp only [mapSet, if_pos hqk, List.mem_cons] at h
      rcases h with h | h
      · exact Or.inl h
      · exact Or.inr (List.mem_cons_of_mem _ h)
    · simp only [mapSet, if_neg hqk, List.mem_cons] at h
      rcases h with h | h
      · exact Or.inr (h ▸ List.mem_cons_self _ _)
      · rcases ih h with h' | h'
        · exact Or.inl h'
        · exact Or.inr (List.mem_cons_of_mem _ h')

theorem mem_mapDelete {κ α : Type} [DecidableEq κ] {m : List (κ × α)} {k : κ}
    {p : κ × α} (h : p ∈ mapDelete m k) : p ∈ m := by
  induction m with
  | nil => simp [mapDelete] at h
  | cons q rest ih =>
    by_cases hqk : q.1 = k
    · simp only [mapDelete, if_pos hqk] at h
      exact List.mem_cons_of_mem _ (ih h)
    · simp only [mapDelete, if_neg hqk, List.mem_cons] at h
      rcases h with h | h
      · exact h ▸ List.mem_cons_self _ _
      · exact List.mem_cons_of_mem _ (ih h)

theorem mapGet_mem {κ α : Type} [DecidableEq κ] {m : List (κ × α)} {k : κ} {v : α}
    (h : mapGet m k = some v) : (k, v) ∈ m := by
  induction m with
  | nil => simp [mapGet] at h
  | cons q rest ih =>
    by_cases hqk : q.1 = k
    · simp only [mapGet, if_pos hqk, Option.some.injEq] at h
      have hq : q = (k, v) := by
        obtain ⟨q1, q2⟩ := q
        simp_all
      rw [hq]
      exact List.mem_cons_self _ _
    · simp only [mapGet, if_neg hqk] at h
      exact List.mem_cons_of_mem _ (ih h)

theorem clearCacheCleanups_eq (beh : Nat → Bool) (m : List (String × CacheEntry)) :
    clearCacheCleanups beh m = m.map (fun p => Ev.cleanup p.2.file) := by
  induction m with
  | nil => rfl
  | cons p rest ih =>
    obtain ⟨k, e⟩ := p
    simp only [clearCacheCleanups, List.map_cons, ih]
    cases cleanupCall beh e.file <;> rfl

/-! ## Key derivation lemmas -/

/-- `getCacheKey` touches only the buffer store and the buffer id counter. -/
theorem bufferCacheKey_frame (st : ServiceState) (ob : Option Nat) :
    (bufferCacheKey st ob).2 =
      { st with
          buffers := (bufferCacheKey st ob).2.buffers,
          bufferIdCounter := (bufferCacheKey st ob).2.bufferIdCounter } := by
  cases ob with
  | none => rfl
  | some bid =>
    simp only [bufferCacheKey]
    cases mapGet st.buffers bid with
    | none => rfl
    | some b =>
      simp only [bufferKeyOfObj]
      cases hb : b.riveBufferId with
      | none => rfl
      | some n => cases n <;> rfl

/-- `getCacheKey` touches only the buffer store and the buffer id counter. -/
theorem getCacheKey_frame (st : ServiceState) (params : RiveFileParams) :
    (getCacheKey st params).2 =
      { st with
          buffers := (getCacheKey st params).2.buffers,
          bufferIdCounter := (getCacheKey st params).2.bufferIdCounter } := by
  rcases params with ⟨src, buffer⟩
  cases src with
  | none => exact bufferCacheKey_frame st buffer
  | some s =>
    by_cases hs : s = ""
    · simpa [getCacheKey, hs] using bufferCacheKey_frame st buffer
    · simp [getCacheKey, hs]

/-- The service-core projections of `getCacheKey` are untouched. -/
theorem getCacheKey_core (st : ServiceState) (params : RiveFileParams) :
    (getCacheKey st params).2.cache = st.cache ∧
    (getCacheKey st params).2.pendingLoads = st.pendingLoads ∧
    (getCacheKey st params).2.signals = st.signals ∧
    (getCacheKey st params).2.nextSig = st.nextSig ∧
    (getCacheKey st params).2.nextBuf = st.nextBuf ∧
    (getCacheKey st params).2.nextHandle = st.nextHandle ∧
    (getCacheKey st params).2.episodes = st.episodes ∧
    (getCacheKey st params).2.events = st.events := by
  rw [getCacheKey_frame]
  exact ⟨rfl, rfl, rfl, rfl, rfl, rfl, rfl, rfl⟩

/-- Stability of the buffer branch: once `bufferCacheKey` has been computed,
recomputing it from any state carrying the resulting buffer store yields the
same key and mutates nothing (the tag is memoized by the first call). -/
theorem bufferCacheKey_stable {st stx st' : ServiceState} {ob : Option Nat}
    {key : String} (h : bufferCacheKey st ob = (key, stx))
    (hb : st'.buffers = stx.buffers) :
    bufferCacheKey st' ob = (key, st') := by
  cases ob with
  | none =>
    simp only [bufferCacheKey, Prod.mk.injEq] at h
    simp [bufferCacheKey, h.1]
  | some bid =>
    simp only [bufferCacheKey] at h ⊢
    cases hbuf : mapGet st.buffers bid with
    | none =>
      rw [hbuf] at h
      simp only [bufferKeyOfObj, Prod.mk.injEq] at h
      rw [hb, ← h.2, hbuf]
      simp [bufferKeyOfObj, h.1]
    | some b =>
      rw [hbuf] at h
      simp only [bufferKeyOfObj] at h
      cases hid : b.riveBufferId with
      | none =>
        rw [hid] at h
        simp only [bufferKeyOfTag, assignFreshBufferId, Prod.mk.injEq] at h
        have hb' : mapGet st'.buffers bid =
            some { b with riveBufferId := some (st.bufferIdCounter + 1) } := by
          rw [hb, ← h.2]
          exact mapGet_set_self st.buffers bid _
        rw [hb']
        simp [bufferKeyOfObj, bufferKeyOfTag, h.1]
      | some n =>
        cases n with
        | zero =>
          rw [hid] at h
          simp only [bufferKeyOfTag, assignFreshBufferId, Prod.mk.injEq] at h
          have hb' : mapGet st'.buffers bid =
              some { b with riveBufferId := some (st.bufferIdCounter + 1) } := by
            rw [hb, ← h.2]
            exact mapGet_set_self st.buffers bid _
          rw [hb']
          simp [bufferKeyOfObj, bufferKeyOfTag, h.1]
        | succ m =>
          rw [hid] at h
          simp only [bufferKeyOfTag, Prod.mk.injEq] at h
          have hb' : mapGet st'.buffers bid = some b := by
            rw [hb, ← h.2]
            exact hbuf
          rw [hb']
          simp [bufferKeyOfObj, bufferKeyOfTag, hid, h.1]

/-- Once derived, the key is stable: repeating `getCacheKey` for the same
parameters from any state carrying the same buffer store yields the same key
and mutates nothing. -/
theorem getCacheKey_stable {st stx st' : ServiceState} {params : RiveFileParams}
    {key : String} (h : getCacheKey st params = (key, stx))
    (hb : st'.buffers = stx.buffers) :
    getCacheKey st' params = (key, st') := by
  rcases params with ⟨src, buffer⟩
  cases src with
  | none =>
    have h' : bufferCacheKey st buffer = (key, stx) := h
    exact bufferCacheKey_stable h' hb
  | some s =>
    by_cases hs : s = ""
    · have h' : bufferCacheKey st buffer = (key, stx) := by
        simpa [getCacheKey, hs] using h
      simpa [getCacheKey, hs] using bufferCacheKey_stable h' hb
    · simp only [getCacheKey, if_neg hs, Prod.mk.injEq] at h
      simp [getCacheKey, hs, h.1]

/-! ## Injectivity of the decimal key encoding

The `buffer:` cache keys embed `Nat.repr` of the identity tag, so distinct
tags must give distinct keys.  `Nat.repr` is `Nat.toDigits 10` rendered as a
string; we relate the fuel-based `Nat.toDigitsCore` to the structural
`digitsAux` and read the number back off the digit characters. -/

theorem digitChar_toNat {n : Nat} (h : n < 10) : (Nat.digitChar n).toNat = 48 + n := by
  interval_cases n <;> rfl

theorem toDigitsCore_eq (f : Nat) :
    ∀ (n : Nat) (ds : List Char), n < f →
      Nat.toDigitsCore 10 f n ds = digitsAux n ++ ds := by
  induction f with
  | zero => intro n ds h; omega
  | succ f ih =>
    intro n ds h
    unfold Nat.toDigitsCore
    by_cases h0 : n / 10 = 0
    · have h10 : n < 10 := by omega
      rw [digitsAux]
      simp [h0, h10, Nat.mod_eq_of_lt h10]
    · have h10 : ¬ n < 10 := by omega
      have hdiv : n / 10 < f := by
        have h1 : n / 10 < n := Nat.div_lt_self (by omega) (by omega)
        omega
      simp only [h0, if_false]
      rw [ih (n / 10) (Nat.digitChar (n % 10) :: ds) hdiv]
      conv_rhs => rw [digitsAux]
      rw [dif_neg h10]
      simp

theorem toDigits_eq (n : Nat) : Nat.toDigits 10 n = digitsAux n := by
  have h := toDigitsCore_eq (n + 1) n [] (Nat.lt_succ_self n)
  simpa [Nat.toDigits] using h

theorem digitsAux_foldl (n : Nat) :
    ∀ a : Nat,
      (digitsAux n).foldl (fun a c => a * 10 + (c.toNat - 48)) a =
        a * 10 ^ (digitsAux n).length + n := by
  induction n using Nat.strong_induction_on with
  | _ n ih =>
    intro a
    by_cases h : n < 10
    · rw [digitsAux, dif_pos h]
      simp [digitChar_toNat h]
    · rw [digitsAux, dif_neg h]
      rw [List.foldl_append]
      have hlt : n / 10 < n := Nat.div_lt_self (by omega) (by omega)
      rw [ih _ hlt a]
      have hm : n % 10 < 10 := Nat.mod_lt _ (by omega)
      simp only [List.foldl, digitChar_toNat hm, List.length_append, List.length_cons,
        List.length_nil]
      have hsub : 48 + n % 10 - 48 = n % 10 := by omega
      rw [hsub]
      calc (a * 10 ^ (digitsAux (n / 10)).length + n / 10) * 10 + n % 10
          = a * 10 ^ ((digitsAux (n / 10)).length + 1) + (n / 10 * 10 + n % 10) := by ring
        _ = a * 10 ^ ((digitsAux (n / 10)).length + 1) + n := by
            have hdm : n / 10 * 10 + n % 10 = n := by omega
            rw [hdm]

theorem digitsVal_digitsAux (n : Nat) : digitsVal (digitsAux n) = n := by
  have h := digitsAux_foldl n 0
  simpa [digitsVal] using h

theorem nat_repr_injective {m n : Nat} (h : Nat.repr m = Nat.repr n) : m = n := by
  have h1 : (Nat.toDigits 10 m).asString = (Nat.toDigits 10 n).asString := h
  have h2 : Nat.toDigits 10 m = Nat.toDigits 10 n := List.asString_inj.mp h1
  rw [toDigits_eq, toDigits_eq] at h2
  have h3 := congrArg digitsVal h2
  rwa [digitsVal_digitsAux, digitsVal_digitsAux] at h3

/-- Distinct identity tags yield distinct `buffer:` cache keys. -/
theorem bufferKey_injective {m n : Nat}
    (h : "buffer:" ++ Nat.repr m = "buffer:" ++ Nat.repr n) : m = n := by
  have hd := congrArg String.data h
  rw [String.data_append, String.data_append] at hd
  have h2 := List.append_cancel_left hd
  exact nat_repr_injective (String.ext h2)

/-! ## Further map lemmas -/

theorem mapSet_mapSet {κ α : Type} [DecidableEq κ] (m : List (κ × α)) (k : κ) (v v' : α) :
    mapSet (mapSet m k v) k v' = mapSet m k v' := by
  induction m with
  | nil => simp [mapSet]
  | cons p rest ih =>
    by_cases hpk : p.1 = k
    · simp [mapSet, hpk]
    · simp [mapSet, hpk, ih]

theorem mapDelete_of_get_none {κ α : Type} [DecidableEq κ] {m : List (κ × α)} {k : κ}
    (h : mapGet m k = none) : mapDelete m k = m := by
  induction m with
  | nil => rfl
  | cons p rest ih =>
    by_cases hpk : p.1 = k
    · simp [mapGet, hpk] at h
    · simp only [mapGet, if_neg hpk] at h
      simp [mapDelete, hpk, ih h]

/-! ## Branch lemmas for the service operations -/

theorem loadFile_eq (st0 : ServiceState) (params : RiveFileParams) (ct : Bool) :
    loadFile st0 params ct = loadFileAt (getCacheKey st0 params).2 (getCacheKey st0 params).1 ct :=
  rfl

theorem releaseFile_eq (beh : Nat → Bool) (st0 : ServiceState) (params : RiveFileParams) :
    releaseFile beh st0 params =
      releaseFileAt beh (getCacheKey st0 params).2 (getCacheKey st0 params).1 :=
  rfl

/-- Cache hit: bump the ref count, return the cached state view. -/
theorem loadFileAt_hit {st : ServiceState} {key : String} {e : CacheEntry}
    (hc : mapGet st.cache key = some e) (ct : Bool) :
    loadFileAt st key ct =
      (e.state,
       { st with cache := mapSet st.cache key { e with refCount := e.refCount + 1 } }) := by
  simp [loadFileAt, hc]

/-- Dedup: a pending load exists; return its signal, change nothing. -/
theorem loadFileAt_dedup {st : ServiceState} {key : String} {p : PendingLoad}
    (hc : mapGet st.cache key = none) (hp : mapGet st.pendingLoads key = some p)
    (ct : Bool) :
    loadFileAt st key ct = (p.stateSignal, st) := by
  simp [loadFileAt, hc, hp]

/-- Miss without a synchronous throw: construct and initialize one handle,
register the episode and the pending load. -/
theorem loadFileAt_miss {st : ServiceState} {key : String}
    (hc : mapGet st.cache key = none) (hp : mapGet st.pendingLoads key = none) :
    loadFileAt st key false =
      (st.nextSig,
       { st with
           signals := mapSet st.signals st.nextSig ⟨none, .loading⟩,
           nextSig := st.nextSig + 1,
           nextHandle := st.nextHandle + 1,
           events := st.events ++ [Ev.construct st.nextHandle, Ev.initCall st.nextHandle],
           episodes := st.episodes ++ [⟨key, st.nextSig, some st.nextHandle, .pending, none⟩],
           pendingLoads := mapSet st.pendingLoads key ⟨st.nextSig⟩ }) := by
  simp [loadFileAt, hc, hp]

/-- Miss with a synchronous constructor/`init` throw: the catch block sets the
failed state and deletes the (not yet present) pending entry, then `loadFile`
registers the pending load anyway. -/
theorem loadFileAt_missThrow {st : ServiceState} {key : String}
    (hc : mapGet st.cache key = none) (hp : mapGet st.pendingLoads key = none) :
    loadFileAt st key true =
      (st.nextSig,
       { st with
           signals := mapSet st.signals st.nextSig ⟨none, .failed⟩,
           nextSig := st.nextSig + 1,
           episodes := st.episodes ++ [⟨key, st.nextSig, none, .errored, some .resolved⟩],
           pendingLoads := mapSet st.pendingLoads key ⟨st.nextSig⟩ }) := by
  simp only [loadFileAt, hc, hp, setSignal, if_true]
  rw [mapSet_mapSet]
  rw [mapDelete_of_get_none hp]

/-- Release of an absent key: no-op on the (post-key-derivation) state. -/
theorem releaseFileAt_none {beh : Nat → Bool} {st : ServiceState} {key : String}
    (hc : mapGet st.cache key = none) :
    releaseFileAt beh st key = st := by
  simp [releaseFileAt, hc]

/-- Release with remaining holders: decrement in place. -/
theorem releaseFileAt_dec {beh : Nat → Bool} {st : ServiceState} {key : String}
    {e : CacheEntry} (hc : mapGet st.cache key = some e) (h : ¬ e.refCount - 1 ≤ 0) :
    releaseFileAt beh st key =
      { st with cache := mapSet st.cache key { e with refCount := e.refCount - 1 } } := by
  simp [releaseFileAt, hc, h]

/-- Release of the last holder: one `cleanup()` call (throwing or not), then
removal from the cache map. -/
theorem releaseFileAt_del {beh : Nat → Bool} {st : ServiceState} {key : String}
    {e : CacheEntry} (hc : mapGet st.cache key = some e) (h : e.refCount - 1 ≤ 0) :
    releaseFileAt beh st key =
      { st with
          events := st.events ++ [Ev.cleanup e.file],
          cache := mapDelete st.cache key } := by
  simp only [releaseFileAt, hc, if_pos h, cleanupCall]
  cases beh e.file <;> simp

theorem fireLoad_eq {st : ServiceState} {i : Nat} {ep : Episode} {h : Nat}
    (he : st.episodes[i]? = some ep) (hst : ep.status = .pending)
    (hh : ep.handleId = some h) :
    fireLoad st i =
      { st with
          events := st.events ++ [Ev.getInstance h],
          signals := mapSet st.signals ep.sigId ⟨some h, .success⟩,
          cache := mapSet st.cache ep.key ⟨h, ep.sigId, 1⟩,
          pendingLoads := mapDelete st.pendingLoads ep.key,
          episodes := st.episodes.set i { ep with status := .loaded, promise := some .resolved } } := by
  simp [fireLoad, he, hst, hh, setSignal]

theorem fireLoadError_eq {st : ServiceState} {i : Nat} {ep : Episode}
    (he : st.episodes[i]? = some ep) (hst : ep.status = .pending) :
    fireLoadError st i =
      { st with
          signals := mapSet st.signals ep.sigId ⟨none, .failed⟩,
          pendingLoads := mapDelete st.pendingLoads ep.key,
          episodes := st.episodes.set i { ep with status := .errored, promise := some .resolved } } := by
  simp [fireLoadError, he, hst, setSignal]

theorem fireLoad_stuck {st : ServiceState} {i : Nat}
    (h : ∀ ep, st.episodes[i]? = some ep → ep.status ≠ .pending ∨ ep.handleId = none) :
    fireLoad st i = st := by
  unfold fireLoad
  cases he : st.episodes[i]? with
  | none => rfl
  | some ep =>
    rcases h ep he with hst | hh
    · simp [hst]
    · by_cases hp : ep.status = EpStatus.pending
      · simp [hp, hh]
      · simp [hp]

theorem fireLoadError_stuck {st : ServiceState} {i : Nat}
    (h : ∀ ep, st.episodes[i]? = some ep → ep.status ≠ .pending) :
    fireLoadError st i = st := by
  unfold fireLoadError
  cases he : st.episodes[i]? with
  | none => rfl
  | some ep => simp [h ep he]

/-! ## The reachability invariant -/

theorem getElem?_concat {α : Type} (l : List α) (a : α) (i : Nat) :
    (l ++ [a])[i]? =
      if i < l.length then l[i]? else if i = l.length then some a else none := by
  rcases Nat.lt_trichotomy i l.length with h | h | h
  · rw [List.getElem?_append_left h, if_pos h]
  · subst h
    simp [List.getElem?_concat_length]
  · rw [if_neg (by omega), if_neg (by omega)]
    apply List.getElem?_eq_none
    simp only [List.length_append, List.length_cons, List.length_nil]
    omega

theorem wf_initState : WF initState := by
  constructor <;> intros <;> simp_all [initState, mapGet]

theorem wf_assignFreshBufferId {st : ServiceState} {bid : Nat} {b : BufferObj}
    (w : WF st) : WF (assignFreshBufferId st bid b).2 := by
  obtain ⟨d1, d2, d3, d4, d5, d6, d7, d8, d9, d10, d11, d12, d13⟩ := w
  refine ⟨d1, d2, d3, d4, d5, d6, d7, d8, d9, d10, d11, ?_, ?_⟩
  · intro p hp n hn
    rcases mem_mapSet hp with h | h
    · subst h
      simp only [assignFreshBufferId] at hn ⊢
      simp only [Option.some.injEq] at hn
      omega
    · have := d12 p h n hn
      simp only [assignFreshBufferId]
      omega
  · intro p hp q hq n hpn hqn
    rcases mem_mapSet hp with h | h <;> rcases mem_mapSet hq with h' | h'
    · rw [h, h']
    · subst h
      simp only [Option.some.injEq] at hpn
      have := (d12 q h' n hqn).2
      omega
    · subst h'
      simp only [Option.some.injEq] at hqn
      have := (d12 p h n hpn).2
      omega
    · exact d13 p h q h' n hpn hqn

theorem wf_bufferCacheKey {st : ServiceState} (ob : Option Nat) (w : WF st) :
    WF (bufferCacheKey st ob).2 := by
  cases ob with
  | none => exact w
  | some bid =>
    simp only [bufferCacheKey]
    cases mapGet st.buffers bid with
    | none => exact w
    | some b =>
      simp only [bufferKeyOfObj]
      cases b.riveBufferId with
      | none => exact wf_assignFreshBufferId w
      | some n =>
        cases n with
        | zero => exact wf_assignFreshBufferId w
        | succ m => exact w

theorem wf_getCacheKey {st : ServiceState} (params : RiveFileParams) (w : WF st) :
    WF (getCacheKey st params).2 := by
  rcases params with ⟨src, buffer⟩
  cases src with
  | none => exact wf_bufferCacheKey buffer w
  | some s =>
    by_cases hs : s = ""
    · simp only [getCacheKey, hs, if_pos rfl]
      exact wf_bufferCacheKey buffer w
    · simp only [getCacheKey, if_neg hs]
      exact w

theorem getElem?_concat_cases {α : Type} {l : List α} {a ep : α} {i : Nat}
    (h : (l ++ [a])[i]? = some ep) :
    (i < l.length ∧ l[i]? = some ep) ∨ (i = l.length ∧ ep = a) := by
  rw [getElem?_concat] at h
  by_cases h1 : i < l.length
  · rw [if_pos h1] at h
    exact Or.inl ⟨h1, h⟩
  · rw [if_neg h1] at h
    by_cases h2 : i = l.length
    · rw [if_pos h2] at h
      cases h
      exact Or.inr ⟨h2, rfl⟩
    · rw [if_neg h2] at h
      cases h

theorem wf_loadFileAt {st : ServiceState} (key : String) (ct : Bool) (w : WF st) :
    WF (loadFileAt st key ct).2 := by
  cases hc : mapGet st.cache key with
  | some e =>
    rw [loadFileAt_hit hc ct]
    dsimp only
    refine ⟨?_, w.sig_lt, w.ep_sig_lt, w.ep_h_lt, w.sig_inj, w.h_inj, ?_, ?_,
      w.clean_ev, ?_, w.promise_ok, w.buf_le, w.buf_inj⟩
    · intro k e' hk
      by_cases hkey : k = key
      · subst hkey
        exact w.disj k e hc
      · rw [mapGet_set_ne _ _ _ _ hkey] at hk
        exact w.disj k e' hk
    · intro p hp
      rcases mem_mapSet hp with h | h
      · subst h
        exact w.cache_ep (key, e) (mapGet_mem hc)
      · exact w.cache_ep p h
    · intro p hp
      rcases mem_mapSet hp with h | h
      · subst h
        exact w.cache_sig (key, e) (mapGet_mem hc)
      · exact w.cache_sig p h
    · intro i ep hh hie hes hhh
      obtain ⟨hcf, hev⟩ := w.err_clean i ep hh hie hes hhh
      refine ⟨?_, hev⟩
      intro p hp
      rcases mem_mapSet hp with h | h
      · subst h
        exact hcf (key, e) (mapGet_mem hc)
      · exact hcf p h
  | none =>
    cases hp : mapGet st.pendingLoads key with
    | some pnd =>
      rw [loadFileAt_dedup hc hp ct]
      exact w
    | none =>
      cases ct with
      | false =>
        rw [loadFileAt_miss hc hp]
        dsimp only
        refine ⟨?_, ?_, ?_, ?_, ?_, ?_, ?_, ?_, ?_, ?_, ?_, w.buf_le, w.buf_inj⟩ <;> dsimp only
        · intro k e' hk
          have hkey : k ≠ key := by
            intro hkk
            subst hkk
            rw [hk] at hc
            cases hc
          rw [mapGet_set_ne _ _ _ _ hkey]
          exact w.disj k e' hk
        · intro p hpm
          rcases mem_mapSet hpm with h | h
          · subst h
            exact Nat.lt_succ_self _
          · exact Nat.lt_succ_of_lt (w.sig_lt p h)
        · intro ep hep
          rcases List.mem_append.mp hep with h | h
          · exact Nat.lt_succ_of_lt (w.ep_sig_lt ep h)
          · simp only [List.mem_singleton] at h
            subst h
            exact Nat.lt_succ_self _
        · intro ep hep h hh
          rcases List.mem_append.mp hep with hm | hm
          · exact Nat.lt_succ_of_lt (w.ep_h_lt ep hm h hh)
          · simp only [List.mem_singleton] at hm
            subst hm
            have hh2 : some st.nextHandle = some h := hh
            injection hh2 with hh3
            omega
        · intro i j ep ep' hi hj hsig
          rcases getElem?_concat_cases hi with ⟨hi1, hi2⟩ | ⟨hi1, hi2⟩ <;>
            rcases getElem?_concat_cases hj with ⟨hj1, hj2⟩ | ⟨hj1, hj2⟩
          · exact w.sig_inj i j ep ep' hi2 hj2 hsig
          · subst hj2
            have h1 := w.ep_sig_lt ep (List.getElem?_mem hi2)
            have h2 : ep.sigId = st.nextSig := hsig
            omega
          · subst hi2
            have h1 := w.ep_sig_lt ep' (List.getElem?_mem hj2)
            have h2 : st.nextSig = ep'.sigId := hsig
            omega
          · omega
        · intro i j ep ep' h hi hj hhi hhj
          rcases getElem?_concat_cases hi with ⟨hi1, hi2⟩ | ⟨hi1, hi2⟩ <;>
            rcases getElem?_concat_cases hj with ⟨hj1, hj2⟩ | ⟨hj1, hj2⟩
          · exact w.h_inj i j ep ep' h hi2 hj2 hhi hhj
          · subst hj2
            have h1 := w.ep_h_lt ep (List.getElem?_mem hi2) h hhi
            have h2 : some st.nextHandle = some h := hhj
            injection h2 with h3
            omega
          · subst hi2
            have h1 := w.ep_h_lt ep' (List.getElem?_mem hj2) h hhj
            have h2 : some st.nextHandle = some h := hhi
            injection h2 with h3
            omega
          · omega
        · intro p hpm
          obtain ⟨i, ep, hie, hl, hh, hs⟩ := w.cache_ep p hpm
          have hi : i < st.episodes.length := (List.getElem?_eq_some_iff.mp hie).1
          refine ⟨i, ep, ?_, hl, hh, hs⟩
          rw [List.getElem?_append_left hi]
          exact hie
        · intro p hpm
          have hlt : p.2.state < st.nextSig :=
            w.sig_lt _ (mapGet_mem (w.cache_sig p hpm))
          rw [mapGet_set_ne _ _ _ _ (by omega)]
          exact w.cache_sig p hpm
        · intro hh hev
          rcases List.mem_append.mp hev with h | h
          · obtain ⟨i, ep, hie, hl, hhh⟩ := w.clean_ev hh h
            have hi : i < st.episodes.length := (List.getElem?_eq_some_iff.mp hie).1
            refine ⟨i, ep, ?_, hl, hhh⟩
            rw [List.getElem?_append_left hi]
            exact hie
          · simp at h
        · intro i ep hh hie hes hhh
          rcases getElem?_concat_cases hie with ⟨hi1, hi2⟩ | ⟨hi1, hi2⟩
          · obtain ⟨hcf, hev⟩ := w.err_clean i ep hh hi2 hes hhh
            refine ⟨hcf, ?_⟩
            intro hmem
            rcases List.mem_append.mp hmem with h | h
            · exact hev h
            · simp at h
          · subst hi2
            exact EpStatus.noConfusion (show EpStatus.pending = EpStatus.errored from hes)
        · intro ep hep
          rcases List.mem_append.mp hep with h | h
          · exact w.promise_ok ep h
          · simp only [List.mem_singleton] at h
            subst h
            simp
      | true =>
        rw [loadFileAt_missThrow hc hp]
        dsimp only
        refine ⟨?_, ?_, ?_, ?_, ?_, ?_, ?_, ?_, ?_, ?_, ?_, w.buf_le, w.buf_inj⟩ <;> dsimp only
        · intro k e' hk
          have hkey : k ≠ key := by
            intro hkk
            subst hkk
            rw [hk] at hc
            cases hc
          rw [mapGet_set_ne _ _ _ _ hkey]
          exact w.disj k e' hk
        · intro p hpm
          rcases mem_mapSet hpm with h | h
          · subst h
            exact Nat.lt_succ_self _
          · exact Nat.lt_succ_of_lt (w.sig_lt p h)
        · intro ep hep
          rcases List.mem_append.mp hep with h | h
          · exact Nat.lt_succ_of_lt (w.ep_sig_lt ep h)
          · simp only [List.mem_singleton] at h
            subst h
            exact Nat.lt_succ_self _
        · intro ep hep h hh
          rcases List.mem_append.mp hep with hm | hm
          · exact w.ep_h_lt ep hm h hh
          · simp only [List.mem_singleton] at hm
            subst hm
            exact Option.noConfusion (show (none : Option Nat) = some h from hh)
        · intro i j ep ep' hi hj hsig
          rcases getElem?_concat_cases hi with ⟨hi1, hi2⟩ | ⟨hi1, hi2⟩ <;>
            rcases getElem?_concat_cases hj with ⟨hj1, hj2⟩ | ⟨hj1, hj2⟩
          · exact w.sig_inj i j ep ep' hi2 hj2 hsig
          · subst hj2
            have h1 := w.ep_sig_lt ep (List.getElem?_mem hi2)
            have h2 : ep.sigId = st.nextSig := hsig
            omega
          · subst hi2
            have h1 := w.ep_sig_lt ep' (List.getElem?_mem hj2)
            have h2 : st.nextSig = ep'.sigId := hsig
            omega
          · omega
        · intro i j ep ep' h hi hj hhi hhj
          rcases getElem?_concat_cases hi with ⟨hi1, hi2⟩ | ⟨hi1, hi2⟩ <;>
            rcases getElem?_concat_cases hj with ⟨hj1, hj2⟩ | ⟨hj1, hj2⟩
          · exact w.h_inj i j ep ep' h hi2 hj2 hhi hhj
          · subst hj2
            exact Option.noConfusion (show (none : Option Nat) = some h from hhj)
          · subst hi2
            exact Option.noConfusion (show (none : Option Nat) = some h from hhi)
          · omega
        · intro p hpm
          obtain ⟨i, ep, hie, hl, hh, hs⟩ := w.cache_ep p hpm
          have hi : i < st.episodes.length := (List.getElem?_eq_some_iff.mp hie).1
          refine ⟨i, ep, ?_, hl, hh, hs⟩
          rw [List.getElem?_append_left hi]
          exact hie
        · intro p hpm
          have hlt : p.2.state < st.nextSig :=
            w.sig_lt _ (mapGet_mem (w.cache_sig p hpm))
          rw [mapGet_set_ne _ _ _ _ (by omega)]
          exact w.cache_sig p hpm
        · intro hh hev
          obtain ⟨i, ep, hie, hl, hhh⟩ := w.clean_ev hh hev
          have hi : i < st.episodes.length := (List.getElem?_eq_some_iff.mp hie).1
          refine ⟨i, ep, ?_, hl, hhh⟩
          rw [List.getElem?_append_left hi]
          exact hie
        · intro i ep hh hie hes hhh
          rcases getElem?_concat_cases hie with ⟨hi1, hi2⟩ | ⟨hi1, hi2⟩
          · exact w.err_clean i ep hh hi2 hes hhh
          · subst hi2
            exact Option.noConfusion (show (none : Option Nat) = some hh from hhh)
        · intro ep hep
          rcases List.mem_append.mp hep with h | h
          · exact w.promise_ok ep h
          · simp only [List.mem_singleton] at h
            subst h
            simp

theorem wf_releaseFileAt {st : ServiceState} (beh : Nat → Bool) (key : String) (w : WF st) :
    WF (releaseFileAt beh st key) := by
  cases hc : mapGet st.cache key with
  | none =>
    rw [releaseFileAt_none hc]
    exact w
  | some e =>
    by_cases hrc : e.refCount - 1 ≤ 0
    · rw [releaseFileAt_del hc hrc]
      refine ⟨?_, w.sig_lt, w.ep_sig_lt, w.ep_h_lt, w.sig_inj, w.h_inj, ?_, ?_, ?_, ?_,
        w.promise_ok, w.buf_le, w.buf_inj⟩ <;> dsimp only
      · intro k e' hk
        by_cases hkey : k = key
        · subst hkey
          rw [mapGet_delete_self] at hk
          exact Option.noConfusion hk
        · rw [mapGet_delete_ne _ _ _ hkey] at hk
          exact w.disj k e' hk
      · intro p hp
        exact w.cache_ep p (mem_mapDelete hp)
      · intro p hp
        exact w.cache_sig p (mem_mapDelete hp)
      · intro hh hev
        rcases List.mem_append.mp hev with hm | hm
        · exact w.clean_ev hh hm
        · simp only [List.mem_singleton] at hm
          injection hm with hm'
          subst hm'
          obtain ⟨i, ep, hie, hl, hh2, _⟩ := w.cache_ep (key, e) (mapGet_mem hc)
          exact ⟨i, ep, hie, hl, hh2⟩
      · intro i ep hh hie hes hhh
        obtain ⟨hcf, hev⟩ := w.err_clean i ep hh hie hes hhh
        refine ⟨fun p hp => hcf p (mem_mapDelete hp), ?_⟩
        intro hmem
        rcases List.mem_append.mp hmem with hm | hm
        · exact hev hm
        · simp only [List.mem_singleton] at hm
          injection hm with hm'
          exact hcf (key, e) (mapGet_mem hc) hm'.symm
    · rw [releaseFileAt_dec hc hrc]
      refine ⟨?_, w.sig_lt, w.ep_sig_lt, w.ep_h_lt, w.sig_inj, w.h_inj, ?_, ?_,
        w.clean_ev, ?_, w.promise_ok, w.buf_le, w.buf_inj⟩ <;> dsimp only
      · intro k e' hk
        by_cases hkey : k = key
        · subst hkey
          exact w.disj k e hc
        · rw [mapGet_set_ne _ _ _ _ hkey] at hk
          exact w.disj k e' hk
      · intro p hp
        rcases mem_mapSet hp with h | h
        · subst h
          exact w.cache_ep (key, e) (mapGet_mem hc)
        · exact w.cache_ep p h
      · intro p hp
        rcases mem_mapSet hp with h | h
        · subst h
          exact w.cache_sig (key, e) (mapGet_mem hc)
        · exact w.cache_sig p h
      · intro i ep hh hie hes hhh
        obtain ⟨hcf, hev⟩ := w.err_clean i ep hh hie hes hhh
        refine ⟨?_, hev⟩
        intro p hp
        rcases mem_mapSet hp with h | h
        · subst h
          exact hcf (key, e) (mapGet_mem hc)
        · exact hcf p h

theorem wf_clearCache {st : ServiceState} (beh : Nat → Bool) (w : WF st) :
    WF (clearCache beh st) := by
  unfold clearCache
  refine ⟨?_, w.sig_lt, w.ep_sig_lt, w.ep_h_lt, w.sig_inj, w.h_inj, ?_, ?_, ?_, ?_,
    w.promise_ok, w.buf_le, w.buf_inj⟩ <;> dsimp only
  · intro k e hk
    exact Option.noConfusion (show (none : Option CacheEntry) = some e from hk)
  · intro p hp
    exact absurd hp (List.not_mem_nil p)
  · intro p hp
    exact absurd hp (List.not_mem_nil p)
  · intro hh hev
    rcases List.mem_append.mp hev with h | h
    · exact w.clean_ev hh h
    · rw [clearCacheCleanups_eq] at h
      rcases List.mem_map.mp h with ⟨p, hp, hpe⟩
      injection hpe with hfe
      obtain ⟨i, ep, hie, hl, hhh, _⟩ := w.cache_ep p hp
      exact ⟨i, ep, hie, hl, hfe ▸ hhh⟩
  · intro i ep hh hie hes hhh
    obtain ⟨hcf, hev⟩ := w.err_clean i ep hh hie hes hhh
    refine ⟨fun p hp => absurd hp (List.not_mem_nil p), ?_⟩
    intro hmem
    rcases List.mem_append.mp hmem with h | h
    · exact hev h
    · rw [clearCacheCleanups_eq] at h
      rcases List.mem_map.mp h with ⟨p, hp, hpe⟩
      injection hpe with hfe
      exact hcf p hp hfe

theorem wf_fireLoad {st : ServiceState} (i : Nat) (w : WF st) : WF (fireLoad st i) := by
  cases he : st.episodes[i]? with
  | none =>
    have hstk : fireLoad st i = st := by
      unfold fireLoad
      rw [he]
    rw [hstk]
    exact w
  | some ep =>
    by_cases hst : ep.status = EpStatus.pending
    · cases hh : ep.handleId with
      | none =>
        have hstk : fireLoad st i = st := by
          unfold fireLoad
          rw [he]
          simp [hst, hh]
        rw [hstk]
        exact w
      | some h =>
        rw [fireLoad_eq he hst hh]
        have hilen : i < st.episodes.length := (List.getElem?_eq_some_iff.mp he).1
        have hepmem : ep ∈ st.episodes := List.getElem?_mem he
        refine ⟨?_, ?_, ?_, ?_, ?_, ?_, ?_, ?_, ?_, ?_, ?_, w.buf_le, w.buf_inj⟩ <;>
          dsimp only
        · intro k e' hk
          by_cases hkey : k = ep.key
          · subst hkey
            rw [mapGet_delete_self]
          · rw [mapGet_delete_ne _ _ _ hkey]
            rw [mapGet_set_ne _ _ _ _ hkey] at hk
            exact w.disj k e' hk
        · intro p hp
          rcases mem_mapSet hp with hpp | hpp
          · subst hpp
            exact w.ep_sig_lt ep hepmem
          · exact w.sig_lt p hpp
        · intro ep' hep'
          rcases List.mem_or_eq_of_mem_set hep' with hm | hm
          · exact w.ep_sig_lt ep' hm
          · subst hm
            exact w.ep_sig_lt ep hepmem
        · intro ep' hep' h' hh'
          rcases List.mem_or_eq_of_mem_set hep' with hm | hm
          · exact w.ep_h_lt ep' hm h' hh'
          · subst hm
            exact w.ep_h_lt ep hepmem h' hh'
        · intro i1 j1 ep1 ep2 h1 h2 hsg
          rw [List.getElem?_set] at h1 h2
          by_cases e1 : i = i1 <;> by_cases e2 : i = j1
          · omega
          · rw [if_pos e1, if_pos hilen] at h1
            rw [if_neg e2] at h2
            injection h1 with h1'
            subst h1'
            have := w.sig_inj i j1 ep ep2 he h2 hsg
            omega
          · rw [if_neg e1] at h1
            rw [if_pos e2, if_pos hilen] at h2
            injection h2 with h2'
            subst h2'
            have := w.sig_inj i1 i ep1 ep h1 he hsg
            omega
          · rw [if_neg e1] at h1
            rw [if_neg e2] at h2
            exact w.sig_inj i1 j1 ep1 ep2 h1 h2 hsg
        · intro i1 j1 ep1 ep2 h' h1 h2 hh1 hh2
          rw [List.getElem?_set] at h1 h2
          by_cases e1 : i = i1 <;> by_cases e2 : i = j1
          · omega
          · rw [if_pos e1, if_pos hilen] at h1
            rw [if_neg e2] at h2
            injection h1 with h1'
            subst h1'
            have := w.h_inj i j1 ep ep2 h' he h2 hh1 hh2
            omega
          · rw [if_neg e1] at h1
            rw [if_pos e2, if_pos hilen] at h2
            injection h2 with h2'
            subst h2'
            have := w.h_inj i1 i ep1 ep h' h1 he hh1 hh2
            omega
          · rw [if_neg e1] at h1
            rw [if_neg e2] at h2
            exact w.h_inj i1 j1 ep1 ep2 h' h1 h2 hh1 hh2
        · intro p hp
          rcases mem_mapSet hp with hpp | hpp
          · subst hpp
            refine ⟨i, { ep with status := .loaded, promise := some .resolved }, ?_, rfl, hh, rfl⟩
            exact List.getElem?_set_self hilen
          · obtain ⟨iw, epw, hw, hl, hhw, hsw⟩ := w.cache_ep p hpp
            have hne : i ≠ iw := by
              intro hE
              subst hE
              rw [he] at hw
              injection hw with hw'
              rw [← hw', hst] at hl
              exact EpStatus.noConfusion hl
            refine ⟨iw, epw, ?_, hl, hhw, hsw⟩
            rw [List.getElem?_set_ne hne]
            exact hw
        · intro p hp
          rcases mem_mapSet hp with hpp | hpp
          · subst hpp
            exact mapGet_set_self st.signals ep.sigId _
          · obtain ⟨iw, epw, hw, hl, hhw, hsw⟩ := w.cache_ep p hpp
            have hne : p.2.state ≠ ep.sigId := by
              intro hE
              have hEq : epw.sigId = ep.sigId := by rw [hsw, hE]
              have hiw := w.sig_inj iw i epw ep hw he hEq
              subst hiw
              rw [he] at hw
              injection hw with hw'
              rw [← hw', hst] at hl
              exact EpStatus.noConfusion hl
            rw [mapGet_set_ne _ _ _ _ hne]
            exact w.cache_sig p hpp
        · intro hh' hev
          rcases List.mem_append.mp hev with hm | hm
          · obtain ⟨iw, epw, hw, hl, hhw⟩ := w.clean_ev hh' hm
            have hne : i ≠ iw := by
              intro hE
              subst hE
              rw [he] at hw
              injection hw with hw'
              rw [← hw', hst] at hl
              exact EpStatus.noConfusion hl
            refine ⟨iw, epw, ?_, hl, hhw⟩
            rw [List.getElem?_set_ne hne]
            exact hw
          · simp at hm
        · intro i1 ep1 hh1 h1 hes hhh1
          rw [List.getElem?_set] at h1
          by_cases e1 : i = i1
          · rw [if_pos e1, if_pos hilen] at h1
            injection h1 with h1'
            rw [← h1'] at hes
            exact EpStatus.noConfusion (show EpStatus.loaded = EpStatus.errored from hes)
          · rw [if_neg e1] at h1
            obtain ⟨hcf, hev⟩ := w.err_clean i1 ep1 hh1 h1 hes hhh1
            refine ⟨?_, ?_⟩
            · intro p hp
              rcases mem_mapSet hp with hpp | hpp
              · subst hpp
                intro hE
                rw [← hE] at hhh1
                exact e1 (w.h_inj i i1 ep ep1 h he h1 hh hhh1)
              · exact hcf p hpp
            · intro hmem
              rcases List.mem_append.mp hmem with hm | hm
              · exact hev hm
              · simp at hm
        · intro ep' hep'
          rcases List.mem_or_eq_of_mem_set hep' with hm | hm
          · exact w.promise_ok ep' hm
          · subst hm
            simp
    · have hstk : fireLoad st i = st := by
        unfold fireLoad
        rw [he]
        simp [hst]
      rw [hstk]
      exact w

theorem wf_fireLoadError {st : ServiceState} (i : Nat) (w : WF st) :
    WF (fireLoadError st i) := by
  cases he : st.episodes[i]? with
  | none =>
    have hstk : fireLoadError st i = st := by
      unfold fireLoadError
      rw [he]
    rw [hstk]
    exact w
  | some ep =>
    by_cases hst : ep.status = EpStatus.pending
    · rw [fireLoadError_eq he hst]
      have hilen : i < st.episodes.length := (List.getElem?_eq_some_iff.mp he).1
      have hepmem : ep ∈ st.episodes := List.getElem?_mem he
      refine ⟨?_, ?_, ?_, ?_, ?_, ?_, ?_, ?_, ?_, ?_, ?_, w.buf_le, w.buf_inj⟩ <;>
        dsimp only
      · intro k e' hk
        by_cases hkey : k = ep.key
        · subst hkey
          rw [mapGet_delete_self]
        · rw [mapGet_delete_ne _ _ _ hkey]
          exact w.disj k e' hk
      · intro p hp
        rcases mem_mapSet hp with hpp | hpp
        · subst hpp
          exact w.ep_sig_lt ep hepmem
        · exact w.sig_lt p hpp
      · intro ep' hep'
        rcases List.mem_or_eq_of_mem_set hep' with hm | hm
        · exact w.ep_sig_lt ep' hm
        · subst hm
          exact w.ep_sig_lt ep hepmem
      · intro ep' hep' h' hh'
        rcases List.mem_or_eq_of_mem_set hep' with hm | hm
        · exact w.ep_h_lt ep' hm h' hh'
        · subst hm
          exact w.ep_h_lt ep hepmem h' hh'
      · intro i1 j1 ep1 ep2 h1 h2 hsg
        rw [List.getElem?_set] at h1 h2
        by_cases e1 : i = i1 <;> by_cases e2 : i = j1
        · omega
        · rw [if_pos e1, if_pos hilen] at h1
          rw [if_neg e2] at h2
          injection h1 with h1'
          subst h1'
          have := w.sig_inj i j1 ep ep2 he h2 hsg
          omega
        · rw [if_neg e1] at h1
          rw [if_pos e2, if_pos hilen] at h2
          injection h2 with h2'
          subst h2'
          have := w.sig_inj i1 i ep1 ep h1 he hsg
          omega
        · rw [if_neg e1] at h1
          rw [if_neg e2] at h2
          exact w.sig_inj i1 j1 ep1 ep2 h1 h2 hsg
      · intro i1 j1 ep1 ep2 h' h1 h2 hh1 hh2
        rw [List.getElem?_set] at h1 h2
        by_cases e1 : i = i1 <;> by_cases e2 : i = j1
        · omega
        · rw [if_pos e1, if_pos hilen] at h1
          rw [if_neg e2] at h2
          injection h1 with h1'
          subst h1'
          have := w.h_inj i j1 ep ep2 h' he h2 hh1 hh2
          omega
        · rw [if_neg e1] at h1
          rw [if_pos e2, if_pos hilen] at h2
          injection h2 with h2'
          subst h2'
          have := w.h_inj i1 i ep1 ep h' h1 he hh1 hh2
          omega
        · rw [if_neg e1] at h1
          rw [if_neg e2] at h2
          exact w.h_inj i1 j1 ep1 ep2 h' h1 h2 hh1 hh2
      · intro p hp
        obtain ⟨iw, epw, hw, hl, hhw, hsw⟩ := w.cache_ep p hp
        have hne : i ≠ iw := by
          intro hE
          subst hE
          rw [he] at hw
          injection hw with hw'
          rw [← hw', hst] at hl
          exact EpStatus.noConfusion hl
        refine ⟨iw, epw, ?_, hl, hhw, hsw⟩
        rw [List.getElem?_set_ne hne]
        exact hw
      · intro p hp
        obtain ⟨iw, epw, hw, hl, hhw, hsw⟩ := w.cache_ep p hp
        have hne : p.2.state ≠ ep.sigId := by
          intro hE
          have hEq : epw.sigId = ep.sigId := by rw [hsw, hE]
          have hiw := w.sig_inj iw i epw ep hw he hEq
          subst hiw
          rw [he] at hw
          injection hw with hw'
          rw [← hw', hst] at hl
          exact EpStatus.noConfusion hl
        rw [mapGet_set_ne _ _ _ _ hne]
        exact w.cache_sig p hp
      · intro hh' hev
        obtain ⟨iw, epw, hw, hl, hhw⟩ := w.clean_ev hh' hev
        have hne : i ≠ iw := by
          intro hE
          subst hE
          rw [he] at hw
          injection hw with hw'
          rw [← hw', hst] at hl
          exact EpStatus.noConfusion hl
        refine ⟨iw, epw, ?_, hl, hhw⟩
        rw [List.getElem?_set_ne hne]
        exact hw
      · intro i1 ep1 hh1 h1 hes hhh1
        rw [List.getElem?_set] at h1
        by_cases e1 : i = i1
        · rw [if_pos e1, if_pos hilen] at h1
          injection h1 with h1'
          subst h1'
          refine ⟨?_, ?_⟩
          · intro p hp hE
            obtain ⟨iw, epw, hw, hl, hhw, _⟩ := w.cache_ep p hp
            rw [hE] at hhw
            have hiw := w.h_inj iw i epw ep hh1 hw he hhw hhh1
            subst hiw
            rw [he] at hw
            injection hw with hw'
            rw [← hw', hst] at hl
            exact EpStatus.noConfusion hl
          · intro hmem
            obtain ⟨iw, epw, hw, hl, hhw⟩ := w.clean_ev hh1 hmem
            have hiw := w.h_inj iw i epw ep hh1 hw he hhw hhh1
            subst hiw
            rw [he] at hw
            injection hw with hw'
            rw [← hw', hst] at hl
            exact EpStatus.noConfusion hl
        · rw [if_neg e1] at h1
          exact w.err_clean i1 ep1 hh1 h1 hes hhh1
      · intro ep' hep'
        rcases List.mem_or_eq_of_mem_set hep' with hm | hm
        · exact w.promise_ok ep' hm
        · subst hm
          simp
    · have hstk : fireLoadError st i = st := by
        unfold fireLoadError
        rw [he]
        simp [hst]
      rw [hstk]
      exact w

theorem wf_allocBuffer {st : ServiceState} (len : Nat) (w : WF st) :
    WF (allocBuffer st len).2 := by
  refine ⟨w.disj, w.sig_lt, w.ep_sig_lt, w.ep_h_lt, w.sig_inj, w.h_inj, w.cache_ep,
    w.cache_sig, w.clean_ev, w.err_clean, w.promise_ok, ?_, ?_⟩ <;> dsimp only
  · intro p hp n hn
    rcases mem_mapSet hp with h | h
    · subst h
      exact Option.noConfusion (show (none : Option Nat) = some n from hn)
    · exact w.buf_le p h n hn
  · intro p hp q hq n hpn hqn
    rcases mem_mapSet hp with h | h
    · subst h
      exact Option.noConfusion (show (none : Option Nat) = some n from hpn)
    · rcases mem_mapSet hq with h' | h'
      · subst h'
        exact Option.noConfusion (show (none : Option Nat) = some n from hqn)
      · exact w.buf_inj p h q h' n hpn hqn

theorem wf_loadFile {st : ServiceState} (params : RiveFileParams) (ct : Bool) (w : WF st) :
    WF (loadFile st params ct).2 :=
  wf_loadFileAt _ ct (wf_getCacheKey params w)

theorem wf_releaseFile {st : ServiceState} (beh : Nat → Bool) (params : RiveFileParams)
    (w : WF st) : WF (releaseFile beh st params) :=
  wf_releaseFileAt beh _ (wf_getCacheKey params w)

/-- Every reachable service state satisfies the invariant. -/
theorem reachable_wf {beh : Nat → Bool} {s : ServiceState} (h : Reachable beh s) : WF s := by
  induction h with
  | empty => exact wf_initState
  | load params ct _ ih => exact wf_loadFile params ct ih
  | release params _ ih => exact wf_releaseFile beh params ih
  | clear _ ih => exact wf_clearCache beh ih
  | settleOk i _ ih => exact wf_fireLoad i ih
  | settleErr i _ ih => exact wf_fireLoadError i ih
  | alloc len _ ih => exact wf_allocBuffer len ih

theorem mapSet_of_get {κ α : Type} [DecidableEq κ] {m : List (κ × α)} {k : κ} {v : α}
    (h : mapGet m k = some v) : mapSet m k v = m := by
  induction m with
  | nil => simp [mapGet] at h
  | cons p rest ih =>
    by_cases hpk : p.1 = k
    · simp only [mapGet, if_pos hpk, Option.some.injEq] at h
      have hp : p = (k, v) := by
        obtain ⟨p1, p2⟩ := p
        simp_all
      simp [mapSet, hpk, hp]
    · simp only [mapGet, if_neg hpk] at h
      simp [mapSet, hpk, ih h]

/-! ## The claims -/

/-- C8: state-machine invariant — in every reachable state, no key is present
in both the in-flight table (`pendingLoads`) and the cache map at once; every
key is in at most one of {absent, pending, cached}. -/
theorem claim8_cache_pending_disjoint {beh : Nat → Bool} {s : ServiceState}
    (hr : Reachable beh s) (k : String) (e : CacheEntry) (p : PendingLoad)
    (hc : mapGet s.cache k = some e) : mapGet s.pendingLoads k ≠ some p := by
  rw [(reachable_wf hr).disj k e hc]
  exact fun hE => Option.noConfusion hE

theorem claim8_witness :
    mapGet (fireLoad (loadFile initState { src := some "a.riv" } false).2 0).pendingLoads
        "src:a.riv" ≠ some ⟨0⟩ :=
  @claim8_cache_pending_disjoint (fun _ => false) _
    (Reachable.settleOk 0 (Reachable.load { src := some "a.riv" } false Reachable.empty))
    "src:a.riv" ⟨0, 0, 1⟩ ⟨0⟩ (by decide)

/-- C1: deduplication of concurrent loads.  From a state whose key is neither
cached nor pending, a first `loadFile` performs exactly one construction and
one `init` call; a second `loadFile` with the same parameters issued before
settlement is a complete no-op returning the very same signal (in particular
it increments no ref count — the cache is untouched by both calls); and when
the one episode settles, the shared signal shows `Success` (resp. `Failed`),
so both returned observables agree. -/
theorem claim1_dedup (st0 st : ServiceState) (params : RiveFileParams) (key : String)
    (hkey : getCacheKey st0 params = (key, st))
    (hc : mapGet st.cache key = none)
    (hp : mapGet st.pendingLoads key = none) :
    (loadFile st0 params false).1 = st.nextSig ∧
    loadFile (loadFile st0 params false).2 params false = loadFile st0 params false ∧
    (loadFile st0 params false).2.events =
      st.events ++ [Ev.construct st.nextHandle, Ev.initCall st.nextHandle] ∧
    (loadFile st0 params false).2.cache = st.cache ∧
    mapGet (fireLoad (loadFile st0 params false).2 st.episodes.length).signals
      st.nextSig = some ⟨some st.nextHandle, .success⟩ ∧
    mapGet (fireLoadError (loadFile st0 params false).2 st.episodes.length).signals
      st.nextSig = some ⟨none, .failed⟩ := by
  have hstep2 : ∀ s1 : ServiceState, s1.buffers = st.buffers →
      mapGet s1.cache key = none →
      mapGet s1.pendingLoads key = some ⟨st.nextSig⟩ →
      loadFile s1 params false = (st.nextSig, s1) := by
    intro s1 hb hc1 hp1
    rw [loadFile_eq, getCacheKey_stable hkey hb]
    dsimp only
    exact loadFileAt_dedup hc1 hp1 false
  have hload : loadFile st0 params false = loadFileAt st key false := by
    rw [loadFile_eq, hkey]
  rw [hload, loadFileAt_miss hc hp]
  dsimp only
  refine ⟨rfl, ?_, rfl, rfl, ?_, ?_⟩
  · exact hstep2 _ rfl hc (mapGet_set_self _ _ _)
  · have he : (st.episodes ++
        [(⟨key, st.nextSig, some st.nextHandle, .pending, none⟩ : Episode)])[st.episodes.length]? =
        some ⟨key, st.nextSig, some st.nextHandle, .pending, none⟩ :=
      List.getElem?_concat_length _ _
    rw [fireLoad_eq he rfl rfl]
    dsimp only
    exact mapGet_set_self _ _ _
  · have he : (st.episodes ++
        [(⟨key, st.nextSig, some st.nextHandle, .pending, none⟩ : Episode)])[st.episodes.length]? =
        some ⟨key, st.nextSig, some st.nextHandle, .pending, none⟩ :=
      List.getElem?_concat_length _ _
    rw [fireLoadError_eq he rfl]
    dsimp only
    exact mapGet_set_self _ _ _

theorem claim1_witness :
    loadFile (loadFile initState { src := some "a.riv" } false).2
        { src := some "a.riv" } false =
      loadFile initState { src := some "a.riv" } false :=
  (claim1_dedup initState initState { src := some "a.riv" } "src:a.riv"
    (by decide) (by decide) (by decide)).2.1

/-- C2: ref counting.  For a key cached with `refCount = N ≥ 1` (the result of
`N` `loadFile` calls past success), no `releaseFile` call before the `N`-th
invokes `cleanup` (the event trace is unchanged and the entry survives with
count `N - m`), and the `N`-th call invokes `cleanup` exactly once and removes
the entry from the cache map. -/
theorem claim2_refcount (beh : Nat → Bool) (st : ServiceState) (params : RiveFileParams)
    (key : String) (e : CacheEntry) (N : Nat)
    (hkey : getCacheKey st params = (key, st))
    (hc : mapGet st.cache key = some e)
    (hN : e.refCount = (N : Int)) (hN1 : 1 ≤ N) :
    (∀ m, m < N →
      mapGet (iterRelease beh params m st).cache key =
        some { e with refCount := (N : Int) - (m : Int) } ∧
      (iterRelease beh params m st).events = st.events) ∧
    mapGet (iterRelease beh params N st).cache key = none ∧
    (iterRelease beh params N st).events = st.events ++ [Ev.cleanup e.file] := by
  have aux : ∀ m, m < N → iterRelease beh params m st =
      { st with cache := mapSet st.cache key { e with refCount := (N : Int) - (m : Int) } } := by
    intro m
    induction m with
    | zero =>
      intro _
      have h0 : ((N : Int) - ((0 : Nat) : Int)) = e.refCount := by
        rw [hN]
        simp
      show st = _
      rw [h0]
      have hee : { e with refCount := e.refCount } = e := rfl
      rw [hee, mapSet_of_get hc]
    | succ mm ih =>
      intro hm
      have hSm := ih (by omega)
      show releaseFile beh (iterRelease beh params mm st) params = _
      have hb : (iterRelease beh params mm st).buffers = st.buffers := by rw [hSm]
      have hcm : mapGet (iterRelease beh params mm st).cache key =
          some { e with refCount := (N : Int) - (mm : Int) } := by
        rw [hSm]
        exact mapGet_set_self _ _ _
      rw [releaseFile_eq, getCacheKey_stable hkey hb]
      dsimp only
      rw [releaseFileAt_dec hcm (show ¬ ((N : Int) - (mm : Int) - 1 ≤ 0) by omega)]
      rw [hSm]
      dsimp only
      rw [mapSet_mapSet]
      have hval : ((N : Int) - (mm : Int)) - 1 = (N : Int) - ((mm + 1 : Nat) : Int) := by
        push_cast
        ring
      rw [← hval]
  obtain ⟨M, rfl⟩ : ∃ M, N = M + 1 := ⟨N - 1, by omega⟩
  have hM : M < M + 1 := Nat.lt_succ_self M
  have hbM : (iterRelease beh params M st).buffers = st.buffers := by rw [aux M hM]
  have hcM : mapGet (iterRelease beh params M st).cache key =
      some { e with refCount := ((M + 1 : Nat) : Int) - (M : Int) } := by
    rw [aux M hM]
    exact mapGet_set_self _ _ _
  have hevM : (iterRelease beh params M st).events = st.events := by rw [aux M hM]
  have hfin : releaseFile beh (iterRelease beh params M st) params =
      { iterRelease beh params M st with
          events := (iterRelease beh params M st).events ++ [Ev.cleanup e.file],
          cache := mapDelete (iterRelease beh params M st).cache key } := by
    rw [releaseFile_eq, getCacheKey_stable hkey hbM]
    dsimp only
    rw [@releaseFileAt_del beh (iterRelease beh params M st) key _ hcM
      (show ((M + 1 : Nat) : Int) - (M : Int) - 1 ≤ 0 by omega)]
  refine ⟨?_, ?_, ?_⟩
  · intro m hm
    constructor
    · rw [aux m hm]
      exact mapGet_set_self _ _ _
    · rw [aux m hm]
  · show mapGet (releaseFile beh (iterRelease beh params M st) params).cache key = none
    rw [hfin]
    exact mapGet_delete_self _ _
  · show (releaseFile beh (iterRelease beh params M st) params).events =
        st.events ++ [Ev.cleanup e.file]
    rw [hfin, hevM]

theorem claim2_witness :
    mapGet (iterRelease (fun _ => false) { src := some "a.riv" } 2
        (loadFile (fireLoad (loadFile initState { src := some "a.riv" } false).2 0)
          { src := some "a.riv" } false).2).cache "src:a.riv" = none :=
  (claim2_refcount (fun _ => false) _ { src := some "a.riv" } "src:a.riv" ⟨0, 0, 2⟩ 2
    (by decide) (by decide) (by decide) (by decide)).2.1

/-- C3 (code defect): on a synchronous constructor/`init` throw the state
record is indeed set to `{ null, Failed }` and no CacheEntry is ever created,
but — because `loadRiveFile`'s catch block runs synchronously inside the
promise executor, *before* `loadFile` reaches `pendingLoads.set` — the
`pendingLoads.delete` is a no-op and a stale PendingLoad for the key remains
registered after `loadFile` returns, contradicting the claimed absence from
the in-flight table (the key is poisoned: later calls join the dead load). -/
theorem claim3_sync_throw_leaves_pending :
    mapGet (loadFile initState { src := some "a.riv" } true).2.signals
        (loadFile initState { src := some "a.riv" } true).1 =
      some ⟨none, .failed⟩ ∧
    mapGet (loadFile initState { src := some "a.riv" } true).2.cache "src:a.riv" = none ∧
    mapGet (loadFile initState { src := some "a.riv" } true).2.pendingLoads "src:a.riv" =
      some ⟨0⟩ := by
  decide

/-- C4: cache hit idempotence.  With a CacheEntry present for the derived key,
`loadFile` returns the very same observable (the entry's stored state view,
which in every reachable state already reports `Success` with the entry's
handle), increments that entry's `refCount` by exactly 1, and changes nothing
else: the resulting state is the old one with only that cache slot updated
(no construction, no events, no signal or table changes). -/
theorem claim4_cache_hit {beh : Nat → Bool} {st : ServiceState}
    (hr : Reachable beh st) (params : RiveFileParams) (key : String) (e : CacheEntry)
    (ct : Bool)
    (hkey : getCacheKey st params = (key, st))
    (hc : mapGet st.cache key = some e) :
    (loadFile st params ct).1 = e.state ∧
    mapGet st.signals e.state = some ⟨some e.file, .success⟩ ∧
    (loadFile st params ct).2 =
      { st with cache := mapSet st.cache key { e with refCount := e.refCount + 1 } } ∧
    mapGet (loadFile st params ct).2.cache key =
      some { e with refCount := e.refCount + 1 } ∧
    (∀ k, k ≠ key → mapGet (loadFile st params ct).2.cache k = mapGet st.cache k) := by
  have hload : loadFile st params ct = loadFileAt st key ct := by
    rw [loadFile_eq, hkey]
  rw [hload, loadFileAt_hit hc ct]
  refine ⟨rfl, ?_, rfl, ?_, ?_⟩
  · exact (reachable_wf hr).cache_sig (key, e) (mapGet_mem hc)
  · exact mapGet_set_self _ _ _
  · intro k hk
    exact mapGet_set_ne _ _ _ _ hk

theorem claim4_witness :
    (loadFile (fireLoad (loadFile initState { src := some "a.riv" } false).2 0)
        { src := some "a.riv" } false).1 = 0 :=
  (claim4_cache_hit
    (Reachable.settleOk 0 (Reachable.load { src := some "a.riv" } false Reachable.empty) :
      Reachable (fun _ => false) _)
    { src := some "a.riv" } "src:a.riv" ⟨0, 0, 1⟩ false (by decide) (by decide)).1

/-- C5: failure is communicated exclusively through the state record's status:
in every reachable state, no load episode's promise was ever rejected, and
every settled episode (success, load-error, or synchronous throw alike) has
its promise resolved — no unhandled asynchronous rejection can escape. -/
theorem claim5_no_rejection {beh : Nat → Bool} {s : ServiceState}
    (hr : Reachable beh s) :
    ∀ ep ∈ s.episodes,
      ep.promise ≠ some PromiseOutcome.rejected ∧
      (ep.status ≠ .pending → ep.promise = some PromiseOutcome.resolved) := by
  intro ep hep
  have h := (reachable_wf hr).promise_ok ep hep
  by_cases hst : ep.status = .pending
  · rw [h, if_pos hst]
    exact ⟨fun hE => Option.noConfusion hE, fun hne => absurd hst hne⟩
  · rw [h, if_neg hst]
    exact ⟨fun hE => PromiseOutcome.noConfusion (Option.some.inj hE), fun _ => rfl⟩

theorem claim5_witness :
    (⟨"src:a.riv", 0, some 0, .errored, some .resolved⟩ : Episode).promise ≠
      some PromiseOutcome.rejected :=
  (claim5_no_rejection
    (Reachable.settleErr 0 (Reachable.load { src := some "a.riv" } false Reachable.empty) :
      Reachable (fun _ => false) _)
    ⟨"src:a.riv", 0, some 0, .errored, some .resolved⟩ (by decide)).1

/-- C6: `clearCache` invokes `cleanup` exactly once per current CacheEntry
regardless of refCount (the cleanup outcomes — one throwing or not — do not
affect the result, so one entry's failure cannot block another's cleanup),
empties the cache map, leaves the in-flight table untouched, and a load that
was pending at clear time still completes normally: its `Load` notification
produces a fresh CacheEntry with `refCount = 1` in the emptied cache, with
the shared signal reporting `Success`. -/
theorem claim6_clear_cache (beh beh' : Nat → Bool) (st : ServiceState) :
    (clearCache beh st).cache = [] ∧
    (clearCache beh st).pendingLoads = st.pendingLoads ∧
    (clearCache beh st).events =
      st.events ++ st.cache.map (fun p => Ev.cleanup p.2.file) ∧
    clearCache beh st = clearCache beh' st ∧
    (∀ (i : Nat) (ep : Episode) (h : Nat),
      st.episodes[i]? = some ep → ep.status = .pending → ep.handleId = some h →
      (fireLoad (clearCache beh st) i).cache = [(ep.key, ⟨h, ep.sigId, 1⟩)] ∧
      mapGet (fireLoad (clearCache beh st) i).signals ep.sigId =
        some ⟨some h, .success⟩) := by
  refine ⟨rfl, rfl, ?_, ?_, ?_⟩
  · show st.events ++ clearCacheCleanups beh st.cache = _
    rw [clearCacheCleanups_eq]
  · unfold clearCache
    rw [clearCacheCleanups_eq, clearCacheCleanups_eq]
  · intro i ep h hie hst hh
    have hie' : (clearCache beh st).episodes[i]? = some ep := hie
    rw [fireLoad_eq hie' hst hh]
    dsimp only
    constructor
    · rfl
    · exact mapGet_set_self _ _ _

theorem claim6_witness :
    (fireLoad (clearCache (fun _ => false)
        (loadFile (fireLoad (loadFile initState { src := some "a" } false).2 0)
          { src := some "b" } false).2) 1).cache = [("src:b", ⟨1, 1, 1⟩)] :=
  ((claim6_clear_cache (fun _ => false) (fun _ => true)
      (loadFile (fireLoad (loadFile initState { src := some "a" } false).2 0)
        { src := some "b" } false).2).2.2.2.2 1
    ⟨"src:b", 1, some 1, .pending, none⟩ 1 (by decide) (by decide) (by decide)).1

/-- Case analysis of buffer-key derivation: either the buffer already carries
a (truthy) tag `n + 1` and the call is pure, or the tag is absent/zero and a
fresh tag `bufferIdCounter + 1` is assigned and memoized. -/
theorem bufferKey_chars {st : ServiceState} {bid : Nat} {o : BufferObj}
    {key : String} {st' : ServiceState}
    (ho : mapGet st.buffers bid = some o)
    (h : getCacheKey st { buffer := some bid } = (key, st')) :
    (∃ n, o.riveBufferId = some (n + 1) ∧
      key = "buffer:" ++ Nat.repr (n + 1) ∧ st' = st) ∨
    ((o.riveBufferId = none ∨ o.riveBufferId = some 0) ∧
      key = "buffer:" ++ Nat.repr (st.bufferIdCounter + 1) ∧
      st' = (assignFreshBufferId st bid o).2) := by
  have h' : bufferKeyOfObj st bid (mapGet st.buffers bid) = (key, st') := h
  rw [ho] at h'
  simp only [bufferKeyOfObj] at h'
  cases ht : o.riveBufferId with
  | none =>
    rw [ht] at h'
    simp only [bufferKeyOfTag, assignFreshBufferId, Prod.mk.injEq] at h'
    exact Or.inr ⟨Or.inl rfl, h'.1.symm, h'.2.symm⟩
  | some n =>
    cases n with
    | zero =>
      rw [ht] at h'
      simp only [bufferKeyOfTag, assignFreshBufferId, Prod.mk.injEq] at h'
      exact Or.inr ⟨Or.inr rfl, h'.1.symm, h'.2.symm⟩
    | succ m =>
      rw [ht] at h'
      simp only [bufferKeyOfTag, Prod.mk.injEq] at h'
      exact Or.inl ⟨m, rfl, h'.1.symm, h'.2.symm⟩

/-- C7: buffer-key identity.  In any reachable state: deriving the key for the
same buffer object twice yields the same key, the second derivation being
pure (the identity tag is assigned once and memoized on the buffer); and two
distinct buffer objects — even with identical byte content — always yield
different keys, because tags come from the monotonically incremented counter. -/
theorem claim7_buffer_identity {beh : Nat → Bool} {st : ServiceState}
    (hr : Reachable beh st) (b1 b2 : Nat) (o1 o2 : BufferObj)
    (h1 : mapGet st.buffers b1 = some o1) (h2 : mapGet st.buffers b2 = some o2)
    (hne : b1 ≠ b2) :
    (∀ key st', getCacheKey st { buffer := some b1 } = (key, st') →
      getCacheKey st' { buffer := some b1 } = (key, st')) ∧
    (∀ key1 st' key2 st'',
      getCacheKey st { buffer := some b1 } = (key1, st') →
      getCacheKey st' { buffer := some b2 } = (key2, st'') →
      key1 ≠ key2) := by
  have w := reachable_wf hr
  constructor
  · intro key st' h
    exact getCacheKey_stable h rfl
  · intro key1 st' key2 st'' hA hB hKeq
    rcases bufferKey_chars h1 hA with ⟨n, ht1, hk1, hst'⟩ | ⟨ht1, hk1, hst'⟩
    · subst hst'
      rcases bufferKey_chars h2 hB with ⟨m, ht2, hk2, _⟩ | ⟨ht2, hk2, _⟩
      · rw [hk1, hk2] at hKeq
        have hnm := bufferKey_injective hKeq
        have := w.buf_inj (b1, o1) (mapGet_mem h1) (b2, o2) (mapGet_mem h2)
          (n + 1) ht1 (by rw [ht2, hnm])
        exact hne this
      · rw [hk1, hk2] at hKeq
        have hnm := bufferKey_injective hKeq
        have hle := (w.buf_le (b1, o1) (mapGet_mem h1) (n + 1) ht1).2
        omega
    · subst hst'
      have h2' : mapGet (assignFreshBufferId st b1 o1).2.buffers b2 = some o2 := by
        show mapGet (mapSet st.buffers b1 _) b2 = some o2
        rw [mapGet_set_ne _ _ _ _ (Ne.symm hne)]
        exact h2
      rcases bufferKey_chars h2' hB with ⟨m, ht2, hk2, _⟩ | ⟨ht2, hk2, _⟩
      · rw [hk1, hk2] at hKeq
        have hnm := bufferKey_injective hKeq
        have hle := (w.buf_le (b2, o2) (mapGet_mem h2) (m + 1) ht2).2
        omega
      · have hk2' : key2 = "buffer:" ++ Nat.repr (st.bufferIdCounter + 1 + 1) := hk2
        rw [hk1, hk2'] at hKeq
        have hnm := bufferKey_injective hKeq
        omega

theorem claim7_witness :
    (getCacheKey (allocBuffer (allocBuffer initState 100).2 100).2
        { buffer := some 0 }).1 ≠
      (getCacheKey (getCacheKey (allocBuffer (allocBuffer initState 100).2 100).2
          { buffer := some 0 }).2 { buffer := some 1 }).1 :=
  (claim7_buffer_identity
    (Reachable.alloc 100 (Reachable.alloc 100 Reachable.empty) :
      Reachable (fun _ => false) _)
    0 1 ⟨100, none⟩ ⟨100, none⟩ (by decide) (by decide) (by decide)).2
    _ _ _ _ rfl rfl

/-- C9 counterexample: the claim says a `releaseFile` whose key has no
CacheEntry leaves the buffer counter unchanged; but releasing a never-loaded
fresh buffer assigns an identity tag during key derivation, incrementing
`bufferIdCounter` from 0 to 1 (and mutating the buffer object), even though
the cache has no entry for the derived key. -/
theorem claim9_counterexample :
    mapGet (allocBuffer initState 100).2.cache "buffer:1" = none ∧
    (releaseFile (fun _ => false) (allocBuffer initState 100).2
        { buffer := some 0 }).bufferIdCounter ≠
      (allocBuffer initState 100).2.bufferIdCounter := by
  decide

/-- C9 (amended): `releaseFile` never throws.  The cleanup outcome (throwing
or not) never affects the result; when the derived key has no CacheEntry the
cache map, in-flight table, signals and event trace are unchanged (key
derivation may still memoize a fresh buffer id and bump the counter); and on
a release reaching `refCount ≤ 0`, even a throwing cleanup does not prevent
removal of the entry from the cache map. -/
theorem claim9_release_never_throws (beh beh' : Nat → Bool) (st0 : ServiceState)
    (params : RiveFileParams) :
    releaseFile beh st0 params = releaseFile beh' st0 params ∧
    (∀ key st, getCacheKey st0 params = (key, st) →
      (mapGet st.cache key = none →
        (releaseFile beh st0 params).cache = st0.cache ∧
        (releaseFile beh st0 params).pendingLoads = st0.pendingLoads ∧
        (releaseFile beh st0 params).signals = st0.signals ∧
        (releaseFile beh st0 params).events = st0.events) ∧
      (∀ e, mapGet st.cache key = some e → e.refCount - 1 ≤ 0 →
        mapGet (releaseFile beh st0 params).cache key = none ∧
        (releaseFile beh st0 params).events = st.events ++ [Ev.cleanup e.file])) := by
  constructor
  · rw [releaseFile_eq, releaseFile_eq]
    cases hc : mapGet (getCacheKey st0 params).2.cache (getCacheKey st0 params).1 with
    | none => rw [releaseFileAt_none hc, releaseFileAt_none hc]
    | some e =>
      by_cases hrc : e.refCount - 1 ≤ 0
      · rw [releaseFileAt_del hc hrc, releaseFileAt_del hc hrc]
      · rw [releaseFileAt_dec hc hrc, releaseFileAt_dec hc hrc]
  · intro key st hkey
    have hcore := getCacheKey_core st0 params
    rw [hkey] at hcore
    constructor
    · intro hcn
      rw [releaseFile_eq, hkey]
      dsimp only
      rw [releaseFileAt_none hcn]
      exact ⟨hcore.1, hcore.2.1, hcore.2.2.1, hcore.2.2.2.2.2.2.2⟩
    · intro e hce hrc
      rw [releaseFile_eq, hkey]
      dsimp only
      rw [releaseFileAt_del hce hrc]
      exact ⟨mapGet_delete_self _ _, rfl⟩

theorem claim9_witness :
    (releaseFile (fun _ => false) initState { src := some "x" }).cache =
      initState.cache :=
  (((claim9_release_never_throws (fun _ => false) (fun _ => true) initState
      { src := some "x" }).2 "src:x" initState (by decide)).1 (by decide)).1

/-- C10: the service invokes `cleanup` only on handles of successfully loaded
episodes — exactly those promoted into the cache map, from `releaseFile` or
`clearCache`; the handle of an episode that failed (error notification or
synchronous throw) is never passed to `cleanup`. -/
theorem claim10_cleanup_only_cached {beh : Nat → Bool} {s : ServiceState}
    (hr : Reachable beh s) :
    (∀ hh : Nat, Ev.cleanup hh ∈ s.events → ∃ (i : Nat) (ep : Episode),
      s.episodes[i]? = some ep ∧ ep.status = .loaded ∧ ep.handleId = some hh) ∧
    (∀ (i : Nat) (ep : Episode) (hh : Nat), s.episodes[i]? = some ep →
      ep.status = .errored → ep.handleId = some hh → Ev.cleanup hh ∉ s.events) :=
  ⟨(reachable_wf hr).clean_ev,
   fun i ep hh hie hes hhh => ((reachable_wf hr).err_clean i ep hh hie hes hhh).2⟩

theorem claim10_witness :
    Ev.cleanup 0 ∉
      (fireLoadError (loadFile initState { src := some "a.riv" } false).2 0).events :=
  (claim10_cleanup_only_cached
    (Reachable.settleErr 0 (Reachable.load { src := some "a.riv" } false Reachable.empty) :
      Reachable (fun _ => false) _)).2 0
    ⟨"src:a.riv", 0, some 0, .errored, some .resolved⟩ 0 (by decide) (by decide) (by decide)




end RiveFileCache
